import Mathlib

/-!
Shallow embedding of the Newsify scoring pipeline (`src/main.py`).

Python strings are modelled as `List Char`; floats as exact rationals `ℚ`;
the two classification models as oracle parameters `List Char → Option ℚ`
(`none` models an exception raised during inference); the network fetch and
HTML parsing inside `extract_article_text` (requests/BeautifulSoup, external
collaborators) as an `Option (List Char)` parameter carrying the text that
`get_text` produced (`none` models any exception in the `try` block).
The md5 cache key is modelled by the article text itself (an injective
stand-in for a collision-free content hash).
-/

namespace Newsify

/-- Characters of a Python string. -/
abbrev Str := List Char

/-- Accumulator loop for Python `str.split()`: maximal runs of
non-whitespace characters, empty pieces discarded. `cur` holds the current
word reversed. -/
def splitWsAux : Str → Str → List Str
  | [], cur => if cur = [] then [] else [cur.reverse]
  | c :: cs, cur =>
    if c.isWhitespace then
      if cur = [] then splitWsAux cs [] else cur.reverse :: splitWsAux cs []
    else splitWsAux cs (c :: cur)

/-- Python `text.split()` (no separator argument). -/
def pySplit (s : Str) : List Str := splitWsAux s []

/-- Python `sep.join(pieces)`. -/
def joinSep (sep : Str) : List Str → Str
  | [] => []
  | [w] => w
  | w :: ws => w ++ sep ++ joinSep sep ws

/-- Python `str.strip()`: drop leading and trailing whitespace. -/
def pyStrip (s : Str) : Str :=
  ((s.dropWhile Char.isWhitespace).reverse.dropWhile Char.isWhitespace).reverse

/-- Python `str.lower()` on the characters relevant here. -/
def pyLower (s : Str) : Str := s.map Char.toLower

/-- Python `needle in hay` substring test. -/
def containsSub (needle : Str) : Str → Bool
  | [] => needle.isEmpty
  | c :: cs => needle.isPrefixOf (c :: cs) || containsSub needle cs

/-- A sentence-boundary character of the regex `[.!?]+` in
`clean_extracted_text`. -/
def isSentBreak (c : Char) : Bool := c = '.' || c = '!' || c = '?'

mutual

/-- Embeds `re.split(r'[.!?]+', text)`: split on maximal runs of `.`, `!`, `?`,
keeping the (possibly empty) pieces between runs. `cur` is the current piece
reversed; `sentSplitSkip` consumes the remainder of a delimiter run. -/
def sentSplitAux : Str → Str → List Str
  | [], cur => [cur.reverse]
  | c :: cs, cur =>
    if isSentBreak c then cur.reverse :: sentSplitSkip cs
    else sentSplitAux cs (c :: cur)

def sentSplitSkip : Str → List Str
  | [] => [[]]
  | c :: cs =>
    if isSentBreak c then sentSplitSkip cs
    else sentSplitAux cs [c]

end

/-- The spam keyword list of `clean_extracted_text` (src/main.py lines 74-75). -/
def SPAM_KEYWORDS : List Str :=
  ["subscribe".toList, "newsletter".toList, "click here".toList,
   "sign up".toList, "follow us".toList, "copyright".toList,
   "all rights reserved".toList]

/-- Embeds `sum(1 for keyword in spam_keywords if keyword in sentence_lower)`. -/
def spamCount (lower : Str) : ℕ :=
  (SPAM_KEYWORDS.filter (fun k => containsSub k lower)).length

/-- The per-sentence loop of `clean_extracted_text` (src/main.py lines 77-91). -/
def cleanLoop : List Str → List Str
  | [] => []
  | s :: rest =>
    let s2 := pyStrip s
    if s2.length < 20 then cleanLoop rest
    else
      if 0 < (pySplit s2).length ∧
          ((spamCount (pyLower s2) : ℚ) / ((pySplit s2).length : ℚ) < 3 / 10) then
        s2 :: cleanLoop rest
      else cleanLoop rest

/-- Embeds `clean_extracted_text` (src/main.py lines 60-93). -/
def clean_extracted_text (text : Str) : Str :=
  joinSep ('.' :: ' ' :: []) (cleanLoop (sentSplitAux text []))

/-- Embeds `' '.join(article_text.split())` (src/main.py line 154). -/
def normalizeWs (s : Str) : Str := joinSep [' '] (pySplit s)

/-- Tail of `extract_article_text` (src/main.py lines 153-166): the fetch and
HTML parsing are external; `page_text` is the text they produced, `none`
modelling any exception in the `try` block (which the function turns into
`None`). -/
def extract_article_text (page_text : Option Str) : Option Str :=
  match page_text with
  | none => none
  | some raw =>
    let t := clean_extracted_text (normalizeWs raw)
    if t = [] ∨ t.length < 100 then none else some t

/-- The word-accumulation loop of `chunk_text` (src/main.py lines 177-187):
`cur` is `current_chunk`, `len` is `current_length`. -/
def chunkLoop (budget : ℕ) : List Str → List Str → ℕ → List (List Str)
  | [], cur, _ => if cur = [] then [] else [cur]
  | w :: ws, cur, len =>
    let len2 := len + (w.length + 1)
    let cur2 := cur ++ [w]
    if budget < len2 then cur2 :: chunkLoop budget ws [] 0
    else chunkLoop budget ws cur2 len2

/-- Embeds `chunk_text` before the final `' '.join` of each chunk: the chunks as
word lists. -/
def chunk_words (text : Str) (max_tokens : ℕ) : List (List Str) :=
  chunkLoop (max_tokens * 4) (pySplit text) [] 0

/-- Embeds `chunk_text` (src/main.py lines 169-189). -/
def chunk_text (text : Str) (max_tokens : ℕ) : List Str :=
  (chunk_words text max_tokens).map (joinSep [' '])

/-- Embeds `sum(fake_news_scores) / len(...) if fake_news_scores else 0.0`
(src/main.py line 308). -/
def final_fake_score (scores : List ℚ) : ℚ :=
  if scores = [] then 0 else scores.sum / (scores.length : ℚ)

/-- Embeds `max(satire_scores) if satire_scores else 0.0` (src/main.py line 318). -/
def pyMax : List ℚ → ℚ
  | [] => 0
  | x :: xs => xs.foldl max x

/-- Embeds `final_score = max(final_fake_score, sarcasm_score)` (src/main.py line 321). -/
def final_score_of (fake_scores satire_scores : List ℚ) : ℚ :=
  max (final_fake_score fake_scores) (pyMax satire_scores)

/-- The planet rating labels, in order (src/main.py lines 15-25). -/
def PLANETS : List String :=
  ["☀️ Sun", "☿️ Mercury", "♀️ Venus", "🌍 Earth", "♂️ Mars",
   "♃ Jupiter", "♄ Saturn", "♅ Uranus", "☆ Neptune"]

/-- Python `int()` on a rational: truncation toward zero. -/
def pyInt (q : ℚ) : ℤ := q.num.tdiv q.den

/-- Embeds `min(int(final_score * len(PLANETS)), len(PLANETS) - 1)`
(src/main.py line 324). -/
def planet_index (final_score : ℚ) : ℕ :=
  min (pyInt (final_score * (PLANETS.length : ℚ))).toNat (PLANETS.length - 1)

/-- Embeds `PLANETS[planet_index]` (src/main.py line 325). -/
def planet_of (final_score : ℚ) : String := PLANETS.getD (planet_index final_score) ""

/-- Embeds `"Fake" if final_score > 0.5 else "Real"` (src/main.py line 328). -/
def predicted_label (final_score : ℚ) : String :=
  if 1 / 2 < final_score then "Fake" else "Real"

/-- Computable floor of a rational (`/` on `ℤ` is Euclidean division, which
floors for the positive denominator). -/
def ratFloor (q : ℚ) : ℤ := q.num / (q.den : ℤ)

/-- Round to the nearest integer, ties to even (Python `round`). -/
def roundHalfEven (q : ℚ) : ℤ :=
  let f := ratFloor q
  if q - (f : ℚ) < 1 / 2 then f
  else if (1 / 2 : ℚ) < q - (f : ℚ) then f + 1
  else if 2 ∣ f then f else f + 1

/-- Python `round(x, 4)` on an exact rational. -/
def pyRound4 (q : ℚ) : ℚ := (roundHalfEven (q * 10000) : ℚ) / 10000

/-- The success dictionary built by `get_truthfulness_score`
(src/main.py lines 331-340). -/
structure ScoreResult where
  score : ℚ
  planet : String
  label : String
  confidence : ℚ
  fake_news_score : ℚ
  sarcasm_score : ℚ
  source : String
  chunks_processed : ℕ
deriving DecidableEq

/-- The error dictionary built by `get_truthfulness_score`
(src/main.py lines 266-273). -/
structure ErrorResult where
  error : String
  score : Option ℚ
  planet : Option String
  label : Option String
  confidence : Option ℚ
  source : String
deriving DecidableEq

/-- A value returned by `get_truthfulness_score`. -/
inductive EvalResult where
  | failure (e : ErrorResult)
  | success (r : ScoreResult)
deriving DecidableEq

/-- The error dictionary of the URL branch (src/main.py lines 266-273). -/
def URL_ERROR : ErrorResult :=
  { error := "Failed to fetch or extract article from URL",
    score := none, planet := none, label := none, confidence := none,
    source := "URL" }

/-- The module-level `_cache` dictionary: key (the article text, standing in
for its md5 hash) to stored result and creation timestamp (seconds). -/
abbrev Cache := Str → Option (ScoreResult × ℚ)

/-- Embeds `CACHE_TTL_SECONDS` (src/main.py line 36). -/
def CACHE_TTL_SECONDS : ℚ := 3600

/-- Embeds `check_cache` (src/main.py lines 207-217): a fresh entry is returned,
an expired one is deleted; the possibly updated dictionary is returned
alongside. -/
def check_cache (now : ℚ) (cache : Cache) (key : Str) :
    Option ScoreResult × Cache :=
  match cache key with
  | none => (none, cache)
  | some (r, ts) =>
    if now - ts < CACHE_TTL_SECONDS then (some r, cache)
    else (none, fun k => if k = key then none else cache k)

/-- Embeds `store_cache` (src/main.py lines 220-222). -/
def store_cache (now : ℚ) (cache : Cache) (key : Str) (r : ScoreResult) : Cache :=
  fun k => if k = key then some (r, now) else cache k

/-- Embeds `get_satire_score` (src/main.py lines 225-246): when the satire model
was not loaded the function returns `0.0` without scoring; otherwise the
oracle runs (and may raise, modelled by `none`). -/
def get_satire_score (available : Bool) (oracle : Str → Option ℚ)
    (text : Str) : Option ℚ :=
  if available then oracle text else some 0

/-- A per-chunk scoring loop (src/main.py lines 288-305 and 312-315): each
iteration calls the scorer and appends its score, in chunk order; an
exception in any iteration (`none`) propagates and aborts the loop. -/
def mapO (f : Str → Option ℚ) : List Str → Option (List ℚ)
  | [] => some []
  | c :: cs =>
    match f c with
    | none => none
    | some q =>
      match mapO f cs with
      | none => none
      | some qs => some (q :: qs)

/-- The scoring part of `get_truthfulness_score` after the cache miss
(src/main.py lines 284-340): chunk at 450 tokens for the fakeness model,
score every chunk, average; chunk at 512 tokens for the satire model, score,
take the maximum; combine by `max`; build the result dictionary. An oracle
exception anywhere (`none`) aborts the whole computation — there is no
per-chunk exception handling in the source. -/
def compute_score (fakeOracle satireOracle : Str → Option ℚ) (available : Bool)
    (article_text : Str) (source : String) : Option ScoreResult :=
  match mapO fakeOracle (chunk_text article_text 450) with
  | none => none
  | some fake_news_scores =>
    match mapO (get_satire_score available satireOracle) (chunk_text article_text 512) with
    | none => none
    | some satire_scores =>
      some {
        score := pyRound4 (max (final_fake_score fake_news_scores) (pyMax satire_scores))
        planet := planet_of (max (final_fake_score fake_news_scores) (pyMax satire_scores))
        label := predicted_label (max (final_fake_score fake_news_scores) (pyMax satire_scores))
        confidence := pyRound4 (max (final_fake_score fake_news_scores) (pyMax satire_scores))
        fake_news_score := pyRound4 (final_fake_score fake_news_scores)
        sarcasm_score := pyRound4 (pyMax satire_scores)
        source := source
        chunks_processed := (chunk_text article_text 450).length }

/-- The cache-consulting wrapper of `get_truthfulness_score`
(src/main.py lines 278-283 and 342-345). -/
def cachedEval (fakeOracle satireOracle : Str → Option ℚ) (available : Bool)
    (now : ℚ) (cache : Cache) (article_text : Str) (source : String) :
    Option (EvalResult × Cache) :=
  match check_cache now cache article_text with
  | (some r, c2) => some (.success r, c2)
  | (none, c2) =>
    match compute_score fakeOracle satireOracle available article_text source with
    | none => none
    | some r => some (.success r, store_cache now c2 article_text r)

/-- Embeds `article_input.startswith('http://') or ...` (src/main.py line 261). -/
def is_url (s : Str) : Bool :=
  List.isPrefixOf ("http://".toList) s || List.isPrefixOf ("https://".toList) s

/-- Embeds `get_truthfulness_score` (src/main.py lines 249-345). The oracles, the
wall clock, the cache dictionary and the fetched page text are explicit
parameters; the overall `none` models an uncaught oracle exception. -/
def get_truthfulness_score (fakeOracle satireOracle : Str → Option ℚ)
    (available : Bool) (now : ℚ) (cache : Cache) (page_text : Option Str)
    (article_input : Str) : Option (EvalResult × Cache) :=
  if is_url article_input then
    match extract_article_text page_text with
    | none => some (.failure URL_ERROR, cache)
    | some t => cachedEval fakeOracle satireOracle available now cache t "URL"
  else
    cachedEval fakeOracle satireOracle available now cache article_input "Text"

/-- Total character cost of a chunk's words as `chunk_text` counts it:
each word plus its following-or-preceding separator. -/
def sumLen (ws : List Str) : ℕ := (ws.map (fun w => w.length + 1)).sum

/-- Keep-predicate on a stripped segment, following the spec's words: the
stripped length is at least 20 characters and the spam ratio
`spam_hits / word_count` is strictly below 0.3. -/
def keepSeg (s2 : Str) : Bool :=
  decide (20 ≤ s2.length) &&
    decide ((spamCount (pyLower s2) : ℚ) / ((pySplit s2).length : ℚ) < 3 / 10)

/-- Variant of `cleanLoop` with the spam-ratio comparison rewritten over `ℕ`
(equivalent for a positive word count); this form evaluates by `decide`. -/
def cleanLoopN : List Str → List Str
  | [] => []
  | s :: rest =>
    let s2 := pyStrip s
    if s2.length < 20 then cleanLoopN rest
    else
      if 0 < (pySplit s2).length ∧
          10 * spamCount (pyLower s2) < 3 * (pySplit s2).length then
        s2 :: cleanLoopN rest
      else cleanLoopN rest

/-- A concrete cache key used in witnesses. -/
def sampleKey : Str := "world news today".toList

/-- A concrete stored result used in witnesses. -/
def sampleStored : ScoreResult where
  score := 0
  planet := ""
  label := ""
  confidence := 0
  fake_news_score := 0
  sarcasm_score := 0
  source := "Text"
  chunks_processed := 1

/-- A concrete one-entry cache created at time 0, used in witnesses. -/
def sampleCache : Cache := fun k2 => if k2 = sampleKey then some (sampleStored, 0) else none

/-- A concrete fakeness oracle scoring every chunk 3/4, used in witnesses. -/
def sampleFakeO : Str → Option ℚ := fun _ => some ((3 : ℚ)/4)

/-- The result the pipeline computes for `sampleKey` under `sampleFakeO`
with the satire model unavailable. -/
def sampleComputed : ScoreResult where
  score := pyRound4 (final_score_of [(3 : ℚ)/4] [0])
  planet := planet_of (final_score_of [(3 : ℚ)/4] [0])
  label := predicted_label (final_score_of [(3 : ℚ)/4] [0])
  confidence := pyRound4 (final_score_of [(3 : ℚ)/4] [0])
  fake_news_score := pyRound4 (final_fake_score [(3 : ℚ)/4])
  sarcasm_score := pyRound4 (pyMax [0])
  source := "Text"
  chunks_processed := (chunk_text sampleKey 450).length

/-- The result the pipeline computes for the empty text input: no chunks,
both signals degenerate to their empty-sequence defaults. -/
def emptyTextResult : ScoreResult where
  score := pyRound4 (final_score_of [] [])
  planet := planet_of (final_score_of [] [])
  label := predicted_label (final_score_of [] [])
  confidence := pyRound4 (final_score_of [] [])
  fake_news_score := pyRound4 (final_fake_score [])
  sarcasm_score := pyRound4 (pyMax [])
  source := "Text"
  chunks_processed := (chunk_text [] 450).length

/-! ### Helper lemmas -/

theorem init_le_foldl_max (xs : List ℚ) : ∀ x : ℚ, x ≤ xs.foldl max x := by
  induction xs with
  | nil => intro x; simp
  | cons y ys ih =>
    intro x
    simpa using le_trans (le_max_left x y) (ih (max x y))

theorem mem_le_foldl_max (xs : List ℚ) :
    ∀ x z : ℚ, z ∈ xs → z ≤ xs.foldl max x := by
  induction xs with
  | nil => intro x z hz; simp at hz
  | cons y ys ih =>
    intro x z hz
    simp only [List.foldl_cons]
    rcases List.mem_cons.mp hz with h | h
    · subst h
      exact le_trans (le_max_right x z) (init_le_foldl_max ys (max x z))
    · exact ih (max x y) z h

theorem foldl_max_mem (xs : List ℚ) : ∀ x : ℚ, xs.foldl max x ∈ x :: xs := by
  induction xs with
  | nil => intro x; simp
  | cons y ys ih =>
    intro x
    simp only [List.foldl_cons]
    rcases List.mem_cons.mp (ih (max x y)) with h1 | h1
    · rcases max_choice x y with hc | hc <;> rw [h1, hc] <;> simp
    · simp [h1]

theorem pyMax_mem (l : List ℚ) (h : l ≠ []) : pyMax l ∈ l := by
  match l with
  | x :: xs =>
    simpa using foldl_max_mem xs x

theorem le_pyMax (l : List ℚ) (z : ℚ) (hz : z ∈ l) : z ≤ pyMax l := by
  match l with
  | x :: xs =>
    rcases List.mem_cons.mp hz with h | h
    · exact h ▸ init_le_foldl_max xs x
    · exact mem_le_foldl_max xs x z h

/-- Claim C1: the fakeness signal is the arithmetic mean of the per-chunk
fakeness scores (0 when there are none), the satire signal is the maximum of
the per-chunk satire scores (0 when there are none), and the final score is
the maximum of the two signals. -/
theorem aggregation_mean_and_max (fake satire : List ℚ) :
    (final_fake_score [] = 0 ∧ pyMax [] = 0)
    ∧ (fake ≠ [] → final_fake_score fake * (fake.length : ℚ) = fake.sum)
    ∧ (satire ≠ [] → pyMax satire ∈ satire ∧ ∀ x ∈ satire, x ≤ pyMax satire)
    ∧ final_score_of fake satire = max (final_fake_score fake) (pyMax satire)
    ∧ (final_score_of fake satire = final_fake_score fake ∨
       final_score_of fake satire = pyMax satire)
    ∧ final_fake_score fake ≤ final_score_of fake satire
    ∧ pyMax satire ≤ final_score_of fake satire := by
  refine ⟨⟨rfl, rfl⟩, ?_, ?_, rfl, ?_, ?_, ?_⟩
  · intro h
    have hlen : ((fake.length : ℚ)) ≠ 0 :=
      Nat.cast_ne_zero.mpr (List.length_pos.mpr h).ne'
    simp only [final_fake_score, if_neg h]
    exact div_mul_cancel₀ fake.sum hlen
  · intro h
    exact ⟨pyMax_mem satire h, fun x hx => le_pyMax satire x hx⟩
  · exact max_choice _ _
  · exact le_max_left _ _
  · exact le_max_right _ _

/-- Witness for `aggregation_mean_and_max` at concrete score lists. -/
theorem aggregation_mean_and_max_witness :
    final_fake_score [(1 : ℚ)/2, 1] * (([(1 : ℚ)/2, 1].length : ℚ)) =
      [(1 : ℚ)/2, 1].sum
    ∧ pyMax [(1 : ℚ)/4] ∈ [(1 : ℚ)/4] := by
  have h := aggregation_mean_and_max [(1 : ℚ)/2, 1] [(1 : ℚ)/4]
  exact ⟨h.2.1 (by simp), (h.2.2.1 (by simp)).1⟩

/-- Shape of a successful `compute_score` run, given the per-chunk scores the
two oracles produced. -/
theorem compute_score_eq (fakeO satireO : Str → Option ℚ) (av : Bool) (t : Str)
    (src : String) (fs ss : List ℚ)
    (hf : mapO fakeO (chunk_text t 450) = some fs)
    (hs : mapO (get_satire_score av satireO) (chunk_text t 512) = some ss) :
    compute_score fakeO satireO av t src = some {
      score := pyRound4 (final_score_of fs ss)
      planet := planet_of (final_score_of fs ss)
      label := predicted_label (final_score_of fs ss)
      confidence := pyRound4 (final_score_of fs ss)
      fake_news_score := pyRound4 (final_fake_score fs)
      sarcasm_score := pyRound4 (pyMax ss)
      source := src
      chunks_processed := (chunk_text t 450).length } := by
  unfold compute_score
  rw [hf, hs]
  rfl

theorem predicted_label_spec (q : ℚ) :
    (predicted_label q = "Fake" ↔ 1 / 2 < q) ∧ (q = 1 / 2 → predicted_label q = "Real") := by
  constructor
  · unfold predicted_label
    split
    case isTrue hx => exact iff_of_true rfl hx
    case isFalse hx =>
      constructor
      · intro habs
        exact absurd habs (by decide)
      · intro hlt
        exact absurd hlt hx
  · intro hq
    subst hq
    unfold predicted_label
    rw [if_neg (lt_irrefl _)]

/-- Claim C3: in every returned result, the label is "Fake" exactly when the
final score is strictly above 1/2; a final score of exactly 1/2 yields
"Real". -/
theorem label_fake_iff (fakeO satireO : Str → Option ℚ) (av : Bool) (t : Str)
    (src : String) (r : ScoreResult) (fs ss : List ℚ)
    (hf : mapO fakeO (chunk_text t 450) = some fs)
    (hs : mapO (get_satire_score av satireO) (chunk_text t 512) = some ss)
    (hr : compute_score fakeO satireO av t src = some r) :
    (r.label = "Fake" ↔ 1 / 2 < final_score_of fs ss)
    ∧ (final_score_of fs ss = 1 / 2 → r.label = "Real")
    ∧ predicted_label (1 / 2) = "Real" := by
  rw [compute_score_eq fakeO satireO av t src fs ss hf hs] at hr
  obtain rfl := Option.some.inj hr
  exact ⟨(predicted_label_spec _).1, (predicted_label_spec _).2,
    (predicted_label_spec (1 / 2)).2 rfl⟩

/-- Witness for `label_fake_iff` at a concrete one-chunk article scored 3/4
by the fakeness oracle. -/
theorem label_fake_iff_witness :
    (({ score := pyRound4 (final_score_of [(3 : ℚ)/4] [0]),
        planet := planet_of (final_score_of [(3 : ℚ)/4] [0]),
        label := predicted_label (final_score_of [(3 : ℚ)/4] [0]),
        confidence := pyRound4 (final_score_of [(3 : ℚ)/4] [0]),
        fake_news_score := pyRound4 (final_fake_score [(3 : ℚ)/4]),
        sarcasm_score := pyRound4 (pyMax [0]),
        source := "Text",
        chunks_processed := (chunk_text ("hello world".toList) 450).length } :
        ScoreResult).label = "Fake" ↔
      1 / 2 < final_score_of [(3 : ℚ)/4] [0]) := by
  exact (label_fake_iff (fun _ => some ((3 : ℚ)/4)) (fun _ => some 0) false
    ("hello world".toList) "Text" _ [(3 : ℚ)/4] [0] rfl rfl rfl).1

theorem pyInt_eq_floor (q : ℚ) (h : 0 ≤ q) : pyInt q = ⌊q⌋ := by
  have h1 : (0 : ℤ) ≤ q.num := Rat.num_nonneg.mpr h
  have h2 : (0 : ℤ) ≤ (q.den : ℤ) := Int.natCast_nonneg _
  unfold pyInt
  rw [Int.tdiv_eq_ediv h1 h2, ← Rat.floor_def]

theorem planet_index_eq (q : ℚ) (h0 : 0 ≤ q) :
    planet_index q = min (⌊q * 9⌋).toNat 8 := by
  have h9 : ((PLANETS.length : ℕ) : ℚ) = 9 := by norm_num [PLANETS]
  have hq9 : 0 ≤ q * 9 := by positivity
  unfold planet_index
  rw [h9, pyInt_eq_floor _ hq9]
  rfl

/-- Claim C4: for every final score in `[0, 1]`, the rating bucket index is
`floor(final_score * 9)` clamped to at most 8, with 0.0 in bucket 0, 1.0 in
bucket 8, bucket 8 covering `[8/9, 1]` and every bucket `i < 8` covering
`[i/9, (i+1)/9)`; there are 9 buckets. -/
theorem rating_bucket (q : ℚ) (h0 : 0 ≤ q) (h1 : q ≤ 1) :
    planet_index q = min (⌊q * 9⌋).toNat 8
    ∧ planet_index 0 = 0
    ∧ planet_index 1 = 8
    ∧ (planet_index q = 8 ↔ 8 / 9 ≤ q)
    ∧ (∀ i : ℕ, i < 8 →
        (planet_index q = i ↔ (i : ℚ) / 9 ≤ q ∧ q < ((i : ℚ) + 1) / 9))
    ∧ PLANETS.length = 9 := by
  have hpi := planet_index_eq q h0
  have hq9 : 0 ≤ q * 9 := by positivity
  have hn0 : 0 ≤ ⌊q * 9⌋ := Int.floor_nonneg.mpr hq9
  have h9pos : (0 : ℚ) < 9 := by norm_num
  refine ⟨hpi, ?_, ?_, ?_, ?_, rfl⟩
  · rw [planet_index_eq 0 le_rfl]
    norm_num
  · rw [planet_index_eq 1 zero_le_one]
    norm_num
  · rw [hpi]
    have h8 : (8 : ℚ) ≤ q * 9 ↔ 8 / 9 ≤ q := (div_le_iff₀ h9pos).symm
    constructor
    · intro hmin
      have ht : (8 : ℤ) ≤ ⌊q * 9⌋ := by omega
      exact h8.mp (by exact_mod_cast Int.le_floor.mp ht)
    · intro hle
      have ht : (8 : ℤ) ≤ ⌊q * 9⌋ := Int.le_floor.mpr (by exact_mod_cast h8.mpr hle)
      omega
  · intro i hi
    rw [hpi]
    have hiff : ⌊q * 9⌋ = (i : ℤ) ↔ ((i : ℚ) ≤ q * 9 ∧ q * 9 < (i : ℚ) + 1) := by
      rw [Int.floor_eq_iff]
      constructor <;> intro h <;>
        exact ⟨by exact_mod_cast h.1, by exact_mod_cast h.2⟩
    constructor
    · intro hmin
      have hz : ⌊q * 9⌋ = (i : ℤ) := by omega
      obtain ⟨ha, hb⟩ := hiff.mp hz
      exact ⟨(div_le_iff₀ h9pos).mpr ha, (lt_div_iff₀ h9pos).mpr hb⟩
    · rintro ⟨ha, hb⟩
      have hz : ⌊q * 9⌋ = (i : ℤ) :=
        hiff.mpr ⟨(div_le_iff₀ h9pos).mp ha, (lt_div_iff₀ h9pos).mp hb⟩
      omega

/-- Witness for `rating_bucket` at the concrete score 17/18. -/
theorem rating_bucket_witness :
    planet_index (17/18 : ℚ) = min (⌊(17/18 : ℚ) * 9⌋).toNat 8
    ∧ (planet_index (17/18 : ℚ) = 8 ↔ 8 / 9 ≤ (17/18 : ℚ)) := by
  have h := rating_bucket (17/18) (by norm_num) (by norm_num)
  exact ⟨h.1, h.2.2.2.1⟩

/-! ### Chunker lemmas -/

theorem splitWsAux_sound (s : Str) :
    ∀ cur, (∀ c ∈ cur, c.isWhitespace = false) →
      ∀ w ∈ splitWsAux s cur, w ≠ [] ∧ ∀ c ∈ w, c.isWhitespace = false := by
  induction s with
  | nil =>
    intro cur hcur w hw
    simp only [splitWsAux] at hw
    split at hw
    · simp at hw
    · rename_i hne
      simp only [List.mem_singleton] at hw
      subst hw
      refine ⟨by simpa using hne, ?_⟩
      intro c hc
      exact hcur c (List.mem_reverse.mp hc)
  | cons a s ih =>
    intro cur hcur w hw
    simp only [splitWsAux] at hw
    by_cases ha : a.isWhitespace
    · rw [if_pos ha] at hw
      by_cases hc : cur = []
      · rw [if_pos hc] at hw
        exact ih [] (by simp) w hw
      · rw [if_neg hc] at hw
        rcases List.mem_cons.mp hw with h | h
        · subst h
          refine ⟨by simpa using hc, ?_⟩
          intro c hcm
          exact hcur c (List.mem_reverse.mp hcm)
        · exact ih [] (by simp) w h
    · rw [if_neg ha] at hw
      refine ih (a :: cur) ?_ w hw
      intro c hc
      rcases List.mem_cons.mp hc with h | h
      · subst h
        exact Bool.eq_false_iff.mpr ha
      · exact hcur c h

theorem splitWsAux_append_word (w : Str) :
    (∀ c ∈ w, c.isWhitespace = false) →
      ∀ rest cur, splitWsAux (w ++ rest) cur = splitWsAux rest (w.reverse ++ cur) := by
  induction w with
  | nil => intro _ rest cur; simp
  | cons a w ih =>
    intro hw rest cur
    have ha : a.isWhitespace = false := hw a (List.mem_cons_self a w)
    simp only [List.cons_append, splitWsAux, ha, Bool.false_eq_true, if_false,
      List.append_eq]
    rw [ih (fun c hc => hw c (List.mem_cons_of_mem a hc)) rest (a :: cur)]
    simp

theorem splitWsAux_ws_cons (c : Char) (rest : Str) (cur : Str)
    (hc : c.isWhitespace = true) (hcur : cur ≠ []) :
    splitWsAux (c :: rest) cur = cur.reverse :: splitWsAux rest [] := by
  simp only [splitWsAux, hc, if_true, if_neg hcur]

theorem pySplit_joinW (ws : List Str)
    (h : ∀ w ∈ ws, w ≠ [] ∧ ∀ c ∈ w, c.isWhitespace = false) :
    pySplit (joinSep [' '] ws) = ws := by
  induction ws with
  | nil => rfl
  | cons w ws ih =>
    obtain ⟨hw1, hw2⟩ := h w (List.mem_cons_self w ws)
    cases ws with
    | nil =>
      show splitWsAux (joinSep [' '] [w]) [] = [w]
      have : joinSep [' '] [w] = w ++ [] := by simp [joinSep]
      rw [this, splitWsAux_append_word w hw2 [] []]
      simp only [splitWsAux, List.append_nil]
      rw [if_neg (by simpa using hw1)]
      simp
    | cons v vs =>
      have hjoin : joinSep [' '] (w :: v :: vs) =
          w ++ (' ' :: joinSep [' '] (v :: vs)) := by
        show w ++ [' '] ++ joinSep [' '] (v :: vs) = _
        simp
      show pySplit (joinSep [' '] (w :: v :: vs)) = w :: v :: vs
      rw [hjoin]
      show splitWsAux (w ++ (' ' :: joinSep [' '] (v :: vs))) [] = w :: v :: vs
      rw [splitWsAux_append_word w hw2 _ []]
      rw [List.append_nil]
      rw [splitWsAux_ws_cons ' ' _ w.reverse (by decide)
        (by simpa using hw1)]
      rw [List.reverse_reverse]
      have := ih (fun x hx => h x (List.mem_cons_of_mem w hx))
      rw [show splitWsAux (joinSep [' '] (v :: vs)) [] =
        pySplit (joinSep [' '] (v :: vs)) from rfl, this]

theorem pySplit_all_ws (s : Str) (h : ∀ c ∈ s, c.isWhitespace = true) :
    pySplit s = [] := by
  show splitWsAux s [] = []
  induction s with
  | nil => rfl
  | cons a s ih =>
    simp only [splitWsAux, h a (List.mem_cons_self a s), if_true]
    exact ih (fun c hc => h c (List.mem_cons_of_mem a hc))

theorem chunkLoop_join (b : ℕ) :
    ∀ ws cur len, (chunkLoop b ws cur len).flatten = cur ++ ws := by
  intro ws
  induction ws with
  | nil =>
    intro cur len
    simp only [chunkLoop]
    split
    · simp [*]
    · simp
  | cons w ws ih =>
    intro cur len
    simp only [chunkLoop]
    split
    · simp [ih]
    · simp [ih]

theorem chunkLoop_chunk_ne_nil (b : ℕ) :
    ∀ ws cur len c, c ∈ chunkLoop b ws cur len → c ≠ [] := by
  intro ws
  induction ws with
  | nil =>
    intro cur len c hc
    simp only [chunkLoop] at hc
    split at hc
    · simp at hc
    · rename_i hne
      simp only [List.mem_singleton] at hc
      subst hc
      exact hne
  | cons w ws ih =>
    intro cur len c hc
    simp only [chunkLoop] at hc
    split at hc
    · rcases List.mem_cons.mp hc with h | h
      · subst h
        simp
      · exact ih [] 0 c h
    · exact ih _ _ c hc

theorem sumLen_append (a c : List Str) : sumLen (a ++ c) = sumLen a + sumLen c := by
  simp [sumLen]

theorem chunkLoop_budget (b : ℕ) :
    ∀ ws cur len, len = sumLen cur → len ≤ b →
      ∀ c ∈ chunkLoop b ws cur len, sumLen c.dropLast ≤ b := by
  intro ws
  induction ws with
  | nil =>
    intro cur len hlen hle c hc
    simp only [chunkLoop] at hc
    split at hc
    · simp at hc
    · simp only [List.mem_singleton] at hc
      subst hc
      rcases List.eq_nil_or_concat c with h | ⟨l2, a, h⟩
      · subst h
        simp [sumLen]
      · subst h
        rw [List.concat_eq_append, List.dropLast_concat]
        have : sumLen (l2 ++ [a]) = sumLen l2 + (a.length + 1) := by
          simp [sumLen_append, sumLen]
        rw [List.concat_eq_append] at hlen
        omega
  | cons w ws ih =>
    intro cur len hlen hle c hc
    simp only [chunkLoop] at hc
    split at hc
    · rcases List.mem_cons.mp hc with h | h
      · subst h
        rw [List.dropLast_concat]
        omega
      · exact ih [] 0 rfl (Nat.zero_le b) c h
    · rename_i hover
      refine ih (cur ++ [w]) (len + (w.length + 1)) ?_ (by omega) c hc
      rw [sumLen_append, ← hlen]
      simp [sumLen]

theorem joinW_length (ws : List Str) (h : ws ≠ []) :
    (joinSep [' '] ws).length + 1 = sumLen ws := by
  induction ws with
  | nil => exact absurd rfl h
  | cons w ws ih =>
    cases ws with
    | nil => simp [joinSep, sumLen]
    | cons v vs =>
      show (w ++ [' '] ++ joinSep [' '] (v :: vs)).length + 1 = _
      have hrec := ih (by simp)
      have : sumLen (w :: v :: vs) = (w.length + 1) + sumLen (v :: vs) := by
        simp [sumLen]
      simp only [List.length_append, List.length_cons, List.length_nil]
      omega

theorem joinW_ne_nil (ws : List Str) (h : ws ≠ []) (hw : ∀ w ∈ ws, w ≠ []) :
    joinSep [' '] ws ≠ [] := by
  cases ws with
  | nil => exact absurd rfl h
  | cons w vs =>
    cases vs with
    | nil => exact hw w (List.mem_cons_self w [])
    | cons v vs2 =>
      show w ++ [' '] ++ joinSep [' '] (v :: vs2) ≠ []
      simp [List.append_eq_nil]

/-- Claim C2: for every input and positive token budget, the chunks' words,
concatenated in order, are exactly the input's word sequence (so no word is
lost, duplicated, reordered, or split across a boundary); no chunk is empty;
an empty or all-whitespace input yields zero chunks; and a chunk exceeds the
character budget `token_budget * 4` by at most its one final word. -/
theorem chunker_spec (s : Str) (b : ℕ) (hb : 0 < b) :
    ((chunk_text s b).map pySplit).flatten = pySplit s
    ∧ (∀ c ∈ chunk_text s b, c ≠ [])
    ∧ ((∀ ch ∈ s, ch.isWhitespace = true) → chunk_text s b = [])
    ∧ (∀ c ∈ chunk_words s b, sumLen c.dropLast ≤ b * 4)
    ∧ (∀ c ∈ chunk_words s b, ∀ h : c ≠ [],
        (joinSep [' '] c).length ≤ b * 4 + (c.getLast h).length) := by
  have hwords : ∀ w ∈ pySplit s, w ≠ [] ∧ ∀ c ∈ w, c.isWhitespace = false :=
    splitWsAux_sound s [] (by simp)
  have hjoin : (chunk_words s b).flatten = pySplit s := by
    have := chunkLoop_join (b * 4) (pySplit s) [] 0
    simpa [chunk_words] using this
  have hcw : ∀ c ∈ chunk_words s b, ∀ w ∈ c, w ≠ [] ∧
      ∀ ch ∈ w, ch.isWhitespace = false := by
    intro c hc w hw
    exact hwords w (hjoin ▸ List.mem_flatten.mpr ⟨c, hc, hw⟩)
  have hbudget : ∀ c ∈ chunk_words s b, sumLen c.dropLast ≤ b * 4 :=
    chunkLoop_budget (b * 4) (pySplit s) [] 0 rfl (Nat.zero_le _)
  refine ⟨?_, ?_, ?_, hbudget, ?_⟩
  · have hmap : (chunk_text s b).map pySplit =
        (chunk_words s b).map (fun c => pySplit (joinSep [' '] c)) := by
      rw [chunk_text, List.map_map]
      rfl
    rw [hmap]
    have heach : ∀ c ∈ chunk_words s b,
        pySplit (joinSep [' '] c) = c := fun c hc => pySplit_joinW c (hcw c hc)
    calc ((chunk_words s b).map (fun c => pySplit (joinSep [' '] c))).flatten
        = ((chunk_words s b).map (fun c => c)).flatten := by
          rw [List.map_congr_left heach]
      _ = pySplit s := by rw [List.map_id']; exact hjoin
  · intro c hc
    rw [chunk_text] at hc
    obtain ⟨wc, hwc, rfl⟩ := List.mem_map.mp hc
    exact joinW_ne_nil wc (chunkLoop_chunk_ne_nil (b * 4) (pySplit s) [] 0 wc hwc)
      (fun w hw => (hcw wc hwc w hw).1)
  · intro hws
    have h0 : pySplit s = [] := pySplit_all_ws s hws
    rw [chunk_text, chunk_words, h0]
    rfl
  · intro c hc h
    have h1 := hbudget c hc
    have h2 := joinW_length c h
    obtain ⟨l2, a, rfl⟩ := (List.eq_nil_or_concat c).resolve_left h
    have hlast : (l2.concat a).getLast h = a := by
      rw [List.getLast_concat' l2]
    rw [hlast]
    rw [List.concat_eq_append] at h1 h2 ⊢
    rw [List.dropLast_concat] at h1
    have h3 : sumLen (l2 ++ [a]) = sumLen l2 + (a.length + 1) := by
      simp [sumLen]
    omega

/-- Witness for `chunker_spec` on a concrete two-word input at token
budget 1 (character budget 4, splitting the words apart). -/
theorem chunker_spec_witness :
    ((chunk_text ("hello world".toList) 1).map pySplit).flatten =
      pySplit ("hello world".toList)
    ∧ ∀ c ∈ chunk_words ("hello world".toList) 1, sumLen c.dropLast ≤ 1 * 4 := by
  have h := chunker_spec ("hello world".toList) 1 (by decide)
  exact ⟨h.1, h.2.2.2.1⟩

/-! ### Sanitizer lemmas -/

theorem head_dropWhile_false (p : Char → Bool) :
    ∀ (l : List Char) (c : Char) (rest : List Char),
      l.dropWhile p = c :: rest → p c = false := by
  intro l
  induction l with
  | nil =>
    intro c rest h
    simp [List.dropWhile] at h
  | cons a l ih =>
    intro c rest h
    by_cases hp : p a = true
    · rw [List.dropWhile_cons_of_pos hp] at h
      exact ih c rest h
    · rw [List.dropWhile_cons_of_neg hp] at h
      cases h
      simpa using hp

theorem pyStrip_has_nonws (s : Str) (h : pyStrip s ≠ []) :
    ∃ c ∈ pyStrip s, c.isWhitespace = false := by
  unfold pyStrip at *
  set inner := ((s.dropWhile Char.isWhitespace).reverse.dropWhile Char.isWhitespace)
    with hinner
  have hi : inner ≠ [] := by
    intro hnil
    rw [hnil] at h
    exact h rfl
  obtain ⟨c, rest, hcr⟩ := List.exists_cons_of_ne_nil hi
  refine ⟨c, ?_, head_dropWhile_false Char.isWhitespace
    ((s.dropWhile Char.isWhitespace).reverse) c rest (hinner.symm.trans hcr)⟩
  rw [List.mem_reverse, hcr]
  simp

theorem splitWsAux_ne_nil (s : Str) :
    ∀ cur, (cur ≠ [] ∨ ∃ c ∈ s, c.isWhitespace = false) →
      splitWsAux s cur ≠ [] := by
  induction s with
  | nil =>
    intro cur hcur
    rcases hcur with h | h
    · simp only [splitWsAux, if_neg h]
      simp
    · simp at h
  | cons a s ih =>
    intro cur hcur
    simp only [splitWsAux]
    by_cases ha : a.isWhitespace
    · rw [if_pos ha]
      by_cases hc : cur = []
      · rw [if_pos hc]
        refine ih [] (Or.inr ?_)
        rcases hcur with h | ⟨c, hcm, hcf⟩
        · exact absurd hc h
        · rcases List.mem_cons.mp hcm with rfl | hmem
          · rw [ha] at hcf
            exact absurd hcf (by simp)
          · exact ⟨c, hmem, hcf⟩
      · rw [if_neg hc]
        simp
    · rw [if_neg ha]
      exact ih (a :: cur) (Or.inl (by simp))

theorem ratio_lt_iff (a w : ℕ) (hw : 0 < w) :
    ((a : ℚ) / (w : ℚ) < 3 / 10) ↔ 10 * a < 3 * w := by
  rw [div_lt_div_iff₀ (by exact_mod_cast hw) (by norm_num : (0 : ℚ) < 10)]
  rw [show ((a : ℚ) * 10 = ((10 * a : ℕ) : ℚ)) by push_cast; ring]
  rw [show ((3 : ℚ) * (w : ℚ) = ((3 * w : ℕ) : ℚ)) by push_cast; ring]
  exact Nat.cast_lt

theorem stripped_long_has_word (s2 : Str) (hs : ∃ s, s2 = pyStrip s)
    (hlen : 20 ≤ s2.length) : 0 < (pySplit s2).length := by
  obtain ⟨s, rfl⟩ := hs
  have hne : pyStrip s ≠ [] := by
    intro hnil
    rw [hnil] at hlen
    simp at hlen
  obtain ⟨c, hcm, hcf⟩ := pyStrip_has_nonws s hne
  have : pySplit (pyStrip s) ≠ [] :=
    splitWsAux_ne_nil (pyStrip s) [] (Or.inr ⟨c, hcm, hcf⟩)
  exact List.length_pos.mpr this

theorem cleanLoop_eq_filter (l : List Str) :
    cleanLoop l = (l.map pyStrip).filter keepSeg := by
  induction l with
  | nil => rfl
  | cons s rest ih =>
    simp only [cleanLoop, List.map_cons, List.filter_cons]
    by_cases hlen : (pyStrip s).length < 20
    · rw [if_pos hlen]
      have : keepSeg (pyStrip s) = false := by
        unfold keepSeg
        rw [decide_eq_false (by omega)]
        simp
      rw [this, ih]
      simp
    · rw [if_neg hlen]
      have hwc : 0 < (pySplit (pyStrip s)).length :=
        stripped_long_has_word (pyStrip s) ⟨s, rfl⟩ (by omega)
      by_cases hr : ((spamCount (pyLower (pyStrip s)) : ℚ) /
          ((pySplit (pyStrip s)).length : ℚ) < 3 / 10)
      · rw [if_pos ⟨hwc, hr⟩]
        have : keepSeg (pyStrip s) = true := by
          unfold keepSeg
          rw [decide_eq_true (by omega), decide_eq_true hr]
          rfl
        rw [this, ih]
        simp
      · rw [if_neg (by intro hcontr; exact hr hcontr.2)]
        have : keepSeg (pyStrip s) = false := by
          unfold keepSeg
          rw [decide_eq_false hr]
          simp
        rw [this, ih]
        simp

theorem cleanLoop_eq_cleanLoopN (l : List Str) : cleanLoop l = cleanLoopN l := by
  induction l with
  | nil => rfl
  | cons s rest ih =>
    simp only [cleanLoop, cleanLoopN]
    by_cases hlen : (pyStrip s).length < 20
    · rw [if_pos hlen, if_pos hlen, ih]
    · rw [if_neg hlen, if_neg hlen]
      have hcond : (0 < (pySplit (pyStrip s)).length ∧
          ((spamCount (pyLower (pyStrip s)) : ℚ) /
            ((pySplit (pyStrip s)).length : ℚ) < 3 / 10)) ↔
          (0 < (pySplit (pyStrip s)).length ∧
            10 * spamCount (pyLower (pyStrip s)) <
              3 * (pySplit (pyStrip s)).length) := by
        constructor
        · rintro ⟨hw, hr⟩
          exact ⟨hw, (ratio_lt_iff _ _ hw).mp hr⟩
        · rintro ⟨hw, hr⟩
          exact ⟨hw, (ratio_lt_iff _ _ hw).mpr hr⟩
      by_cases hc : 0 < (pySplit (pyStrip s)).length ∧
          10 * spamCount (pyLower (pyStrip s)) < 3 * (pySplit (pyStrip s)).length
      · rw [if_pos (hcond.mpr hc), if_pos hc, ih]
      · rw [if_neg (fun hcontr => hc (hcond.mp hcontr)), if_neg hc, ih]

/-- Claim C5: the sanitizer keeps exactly the sentence segments (split on
`.`, `!`, `?`) whose stripped length is at least 20 and whose spam ratio is
strictly below 0.3, rejoined with ". "; the segment "Subscribe to our
Newsletter" is dropped and "Subscribe today, the bridge collapsed yesterday
killing three" is kept. -/
theorem sanitizer_spec :
    (∀ text, clean_extracted_text text =
      joinSep ('.' :: ' ' :: [])
        (((sentSplitAux text []).map pyStrip).filter keepSeg))
    ∧ clean_extracted_text ("Subscribe to our Newsletter".toList) = []
    ∧ clean_extracted_text
        ("Subscribe today, the bridge collapsed yesterday killing three".toList) =
      "Subscribe today, the bridge collapsed yesterday killing three".toList := by
  refine ⟨?_, ?_, ?_⟩
  · intro text
    rw [clean_extracted_text, cleanLoop_eq_filter]
  · rw [clean_extracted_text, cleanLoop_eq_cleanLoopN]
    decide
  · rw [clean_extracted_text, cleanLoop_eq_cleanLoopN]
    decide

/-! ### Cache and pipeline claims -/

/-- Claim C6: a lookup within TTL of the entry's creation returns the stored
result unchanged — for every pair of oracles, so nothing is recomputed — and
leaves the cache untouched; once `now - created_at` reaches the TTL the
entry is deleted at lookup time, the pipeline result is computed again and
stored under the new timestamp. -/
theorem cache_ttl (fakeO satireO : Str → Option ℚ) (av : Bool)
    (cache : Cache) (k : Str) (v : ScoreResult) (t0 now : ℚ)
    (page : Option Str) (r : ScoreResult) :
    (cache k = some (v, t0) → now - t0 < CACHE_TTL_SECONDS → is_url k = false →
      get_truthfulness_score fakeO satireO av now cache page k =
        some (.success v, cache))
    ∧ (cache k = some (v, t0) → CACHE_TTL_SECONDS ≤ now - t0 →
      (check_cache now cache k).1 = none ∧ (check_cache now cache k).2 k = none)
    ∧ (cache k = some (v, t0) → CACHE_TTL_SECONDS ≤ now - t0 →
      is_url k = false →
      compute_score fakeO satireO av k "Text" = some r →
      ∃ c2, get_truthfulness_score fakeO satireO av now cache page k =
          some (.success r, c2)
        ∧ c2 k = some (r, now)
        ∧ ∀ k2, k2 ≠ k → c2 k2 = cache k2) := by
  refine ⟨?_, ?_, ?_⟩
  · intro hc httl hurl
    simp only [get_truthfulness_score, hurl, Bool.false_eq_true, if_false]
    simp only [cachedEval, check_cache, hc]
    rw [if_pos httl]
  · intro hc httl
    simp only [check_cache, hc]
    rw [if_neg (not_lt.mpr httl)]
    exact ⟨rfl, by simp⟩
  · intro hc httl hurl hcomp
    refine ⟨store_cache now (fun k2 => if k2 = k then none else cache k2) k r,
      ?_, ?_, ?_⟩
    · simp only [get_truthfulness_score, hurl, Bool.false_eq_true, if_false]
      simp only [cachedEval, check_cache, hc]
      rw [if_neg (not_lt.mpr httl)]
      simp only [hcomp]
    · simp [store_cache]
    · intro k2 hk2
      simp [store_cache, if_neg hk2]

/-- Witness for `cache_ttl`: the concrete entry created at time 0 is
returned unchanged at time 10 with no recomputation, and at time 3600 it is
evicted and the computed pipeline result replaces it. -/
theorem cache_ttl_witness :
    (get_truthfulness_score sampleFakeO (fun _ => none) false 10 sampleCache
        none sampleKey = some (.success sampleStored, sampleCache))
    ∧ (∃ c2, get_truthfulness_score sampleFakeO (fun _ => none) false 3600
        sampleCache none sampleKey = some (.success sampleComputed, c2)
        ∧ c2 sampleKey = some (sampleComputed, (3600 : ℚ))) := by
  constructor
  · exact (cache_ttl sampleFakeO (fun _ => none) false sampleCache sampleKey
      sampleStored 0 10 none sampleStored).1 rfl
      (by norm_num [CACHE_TTL_SECONDS]) rfl
  · obtain ⟨c2, h1, h2, -⟩ := (cache_ttl sampleFakeO (fun _ => none) false
      sampleCache sampleKey sampleStored 0 3600 none sampleComputed).2.2 rfl
      (by norm_num [CACHE_TTL_SECONDS]) rfl
      (compute_score_eq sampleFakeO (fun _ => none) false sampleKey "Text"
        [(3 : ℚ)/4] [0] rfl rfl)
    exact ⟨c2, h1, h2⟩

/-- Claim C7 counterexample: the empty text input evaluates successfully —
no error — yet its result has `chunks_processed = 0`, not `≥ 1`. -/
theorem chunks_processed_zero_cex :
    (get_truthfulness_score (fun _ => some 0) (fun _ => some 0) false 0
        (fun _ => none) none []).map Prod.fst =
      some (.success emptyTextResult)
    ∧ emptyTextResult.chunks_processed = 0 := by
  exact ⟨rfl, rfl⟩

/-- Claim C7 (amended): a successfully computed result has
`chunks_processed ≥ 1` whenever the article text contains at least one word;
the empty (or all-whitespace) text input instead yields
`chunks_processed = 0`. -/
theorem chunks_processed_pos (fakeO satireO : Str → Option ℚ) (av : Bool)
    (t : Str) (src : String) (r : ScoreResult)
    (h : compute_score fakeO satireO av t src = some r)
    (hw : pySplit t ≠ []) : 1 ≤ r.chunks_processed := by
  unfold compute_score at h
  rcases hmf : mapO fakeO (chunk_text t 450) with _ | fs
  · rw [hmf] at h
    exact absurd h (by simp)
  rw [hmf] at h
  rcases hms : mapO (get_satire_score av satireO) (chunk_text t 512) with _ | ss
  · rw [hms] at h
    exact absurd h (by simp)
  rw [hms] at h
  have hr := Option.some.inj h
  have hcp : r.chunks_processed = (chunk_text t 450).length := by
    rw [← hr]
  have hj : (chunk_words t 450).flatten = pySplit t := by
    simpa [chunk_words] using chunkLoop_join (450 * 4) (pySplit t) [] 0
  have hne : chunk_words t 450 ≠ [] := by
    intro h0
    rw [h0] at hj
    exact hw hj.symm
  have hlen : 0 < (chunk_text t 450).length := by
    rw [chunk_text, List.length_map]
    exact List.length_pos.mpr hne
  omega

/-- Witness for `chunks_processed_pos` at the concrete three-word text. -/
theorem chunks_processed_pos_witness : 1 ≤ sampleComputed.chunks_processed := by
  exact chunks_processed_pos sampleFakeO (fun _ => none) false sampleKey "Text"
    sampleComputed
    (compute_score_eq sampleFakeO (fun _ => none) false sampleKey "Text"
      [(3 : ℚ)/4] [0] rfl rfl)
    (by decide)

theorem mapO_satire_unavailable (satireO : Str → Option ℚ) (l : List Str) :
    mapO (get_satire_score false satireO) l = some (l.map (fun _ => (0 : ℚ))) := by
  induction l with
  | nil => rfl
  | cons c cs ih =>
    have h1 : get_satire_score false satireO c = some 0 := rfl
    simp only [mapO, h1, List.map_cons]
    rw [ih]

theorem pyMax_const_zero (l : List Str) :
    pyMax (l.map (fun _ => (0 : ℚ))) = 0 := by
  cases l with
  | nil => rfl
  | cons c cs =>
    show (cs.map (fun _ => (0 : ℚ))).foldl max 0 = 0
    induction cs with
    | nil => rfl
    | cons d ds ih =>
      show ((d :: ds).map (fun _ => (0 : ℚ))).foldl max 0 = 0
      simp only [List.map_cons, List.foldl_cons, max_self]
      exact ih

theorem ratFloor_zero : ratFloor 0 = 0 := by
  unfold ratFloor
  rw [Rat.num_zero, Rat.den_zero]
  rfl

theorem pyRound4_zero : pyRound4 0 = 0 := by
  unfold pyRound4
  rw [zero_mul]
  have h : roundHalfEven 0 = 0 := by
    unfold roundHalfEven
    rw [ratFloor_zero]
    norm_num
  rw [h]
  norm_num

/-- Claim C8 counterexample: a satire-oracle failure on a single chunk
aborts the whole evaluation instead of excluding the chunk — the source has
no per-chunk exception handling. -/
theorem chunk_failure_aborts_cex :
    compute_score (fun _ => some 0) (fun _ => none) true
      ("hello world".toList) "Text" = none := by
  rfl

/-- Claim C8 (amended): when the satire oracle is unavailable every chunk's
satire score is 0.0 — so the satire signal degrades to 0.0 and evaluation
still returns a result whenever fakeness scoring succeeds; but a per-chunk
oracle failure is not excluded from the reduction: it aborts the whole
evaluation (see the counterexample). -/
theorem satire_unavailable_degrades (fakeO satireO : Str → Option ℚ) (t : Str)
    (src : String) (fs : List ℚ)
    (hf : mapO fakeO (chunk_text t 450) = some fs) :
    (∀ c, get_satire_score false satireO c = some 0)
    ∧ ∃ r, compute_score fakeO satireO false t src = some r
        ∧ r.sarcasm_score = 0 := by
  refine ⟨fun c => rfl, ?_⟩
  refine ⟨_, compute_score_eq fakeO satireO false t src fs _ hf
    (mapO_satire_unavailable satireO (chunk_text t 512)), ?_⟩
  show pyRound4 (pyMax ((chunk_text t 512).map (fun _ => (0 : ℚ)))) = 0
  rw [pyMax_const_zero, pyRound4_zero]

/-- Witness for `satire_unavailable_degrades` at the concrete text. -/
theorem satire_unavailable_degrades_witness :
    ∃ r, compute_score sampleFakeO (fun _ => none) false sampleKey "Text" =
      some r ∧ r.sarcasm_score = 0 := by
  exact (satire_unavailable_degrades sampleFakeO (fun _ => none) sampleKey
    "Text" [(3 : ℚ)/4] rfl).2

theorem cachedEval_ne_failure (fakeO satireO : Str → Option ℚ) (av : Bool)
    (now : ℚ) (cache : Cache) (t : Str) (src : String) (e : ErrorResult)
    (c2 : Cache) :
    cachedEval fakeO satireO av now cache t src ≠ some (.failure e, c2) := by
  unfold cachedEval
  split
  · simp
  · split
    · simp
    · simp

/-- Claim C9: for a URL input whose extracted-and-sanitized text is empty or
below the 100-character floor, evaluation returns the extraction-error
record (error string set, score `None`) without scoring; and that error
record is the only pipeline-level failure the facade ever returns. -/
theorem url_extraction_failure (fakeO satireO : Str → Option ℚ) (av : Bool)
    (now : ℚ) (cache : Cache) (page : Option Str) (input : Str) :
    (∀ raw, page = some raw →
      (clean_extracted_text (normalizeWs raw)).length < 100 →
      extract_article_text page = none)
    ∧ (is_url input = true → extract_article_text page = none →
      get_truthfulness_score fakeO satireO av now cache page input =
        some (.failure URL_ERROR, cache))
    ∧ URL_ERROR.score = none
    ∧ (∀ e c2, get_truthfulness_score fakeO satireO av now cache page input =
        some (.failure e, c2) →
        is_url input = true ∧ extract_article_text page = none
          ∧ e = URL_ERROR ∧ c2 = cache) := by
  refine ⟨?_, ?_, rfl, ?_⟩
  · intro raw hp hlen
    subst hp
    simp only [extract_article_text]
    rw [if_pos (Or.inr hlen)]
  · intro hu he
    simp only [get_truthfulness_score, hu, if_true]
    rw [he]
  · intro e c2 h
    by_cases hu : is_url input = true
    · simp only [get_truthfulness_score, hu, if_true] at h
      rcases hext : extract_article_text page with _ | t
      · rw [hext] at h
        have h2 := Option.some.inj h
        have h3 : EvalResult.failure URL_ERROR = EvalResult.failure e :=
          congrArg Prod.fst h2
        have h4 : cache = c2 := congrArg Prod.snd h2
        refine ⟨hu, rfl, ?_, h4.symm⟩
        injection h3 with h5
        exact h5.symm
      · rw [hext] at h
        exact absurd h (cachedEval_ne_failure fakeO satireO av now cache t
          "URL" e c2)
    · rw [Bool.not_eq_true] at hu
      simp only [get_truthfulness_score, hu, Bool.false_eq_true, if_false] at h
      exact absurd h (cachedEval_ne_failure fakeO satireO av now cache input
        "Text" e c2)

/-- Witness for `url_extraction_failure`: a page whose text sanitizes to
under 100 characters makes the URL evaluation fail with the error record. -/
theorem url_extraction_failure_witness :
    extract_article_text (some ("hi".toList)) = none
    ∧ get_truthfulness_score (fun _ => some 0) (fun _ => some 0) false 0
        (fun _ => none) (some ("hi".toList)) ("http://x.com".toList) =
      some (.failure URL_ERROR, fun _ => none) := by
  have h := url_extraction_failure (fun _ => some 0) (fun _ => some 0) false 0
    (fun _ => none) (some ("hi".toList)) ("http://x.com".toList)
  have he := h.1 ("hi".toList) rfl (by decide)
  exact ⟨he, h.2.1 rfl he⟩

/-- Claim C10: a non-URL input is used verbatim as the article text — the
facade hands it straight to the cached pipeline with no sanitization,
normalization or minimum-length check — and the empty string evaluates
successfully to zero signals, label "Real" and zero chunks. -/
theorem text_input_verbatim (fakeO satireO : Str → Option ℚ) (av : Bool)
    (now : ℚ) (cache : Cache) (page : Option Str) (input : Str) :
    (is_url input = false →
      get_truthfulness_score fakeO satireO av now cache page input =
        cachedEval fakeO satireO av now cache input "Text")
    ∧ (cache [] = none →
      (get_truthfulness_score fakeO satireO av now cache page []).map
          Prod.fst = some (.success emptyTextResult)
      ∧ emptyTextResult.score = 0
      ∧ emptyTextResult.fake_news_score = 0
      ∧ emptyTextResult.sarcasm_score = 0
      ∧ emptyTextResult.label = "Real"
      ∧ emptyTextResult.chunks_processed = 0) := by
  have hz : final_score_of ([] : List ℚ) [] = 0 := by
    simp [final_score_of, final_fake_score, pyMax]
  constructor
  · intro h
    simp only [get_truthfulness_score, h, Bool.false_eq_true, if_false]
  · intro hc
    refine ⟨?_, ?_, ?_, ?_, ?_, rfl⟩
    · have h1 : is_url [] = false := rfl
      simp only [get_truthfulness_score, h1, Bool.false_eq_true, if_false,
        cachedEval, check_cache, hc]
      rw [compute_score_eq fakeO satireO av [] "Text" [] [] rfl rfl]
      rfl
    · show pyRound4 (final_score_of [] []) = 0
      rw [hz, pyRound4_zero]
    · show pyRound4 (final_fake_score []) = 0
      rw [show final_fake_score [] = 0 from rfl, pyRound4_zero]
    · show pyRound4 (pyMax []) = 0
      rw [show pyMax [] = (0 : ℚ) from rfl, pyRound4_zero]
    · show predicted_label (final_score_of [] []) = "Real"
      rw [hz]
      unfold predicted_label
      rw [if_neg (by norm_num)]

/-- Witness for `text_input_verbatim` at a concrete non-URL input and the
empty cache. -/
theorem text_input_verbatim_witness :
    get_truthfulness_score sampleFakeO (fun _ => none) false 0 (fun _ => none)
        none sampleKey =
      cachedEval sampleFakeO (fun _ => none) false 0 (fun _ => none) sampleKey
        "Text"
    ∧ (get_truthfulness_score sampleFakeO (fun _ => none) false 0
        (fun _ => none) none []).map Prod.fst =
      some (.success emptyTextResult) := by
  have h := text_input_verbatim sampleFakeO (fun _ => none) false 0
    (fun _ => none) none sampleKey
  exact ⟨h.1 rfl, (h.2 rfl).1⟩

end Newsify
